import Mathlib

/-!
Shallow embedding of `src/clean_translations.py` (SQuAD translation cleaning).

Python strings are modelled as `List Char` (Python `str` indexes by Unicode
code point, so character lists give the same offset arithmetic).  Python
`str.find`, which returns `-1` on failure, is modelled by `strFind` returning
`Option Nat` (`none` stands for `-1`).  Dictionaries with optional keys are
modelled by structures with `Option` fields, and a Python `KeyError` or
`IndexError` (e.g. `qa['answers'][0]` on an empty list) is modelled by the
surrounding computation returning `none`.
-/

namespace SquadClean

/-- Model of Python `context.find(answer)`: the least index at which `answer`
occurs as a contiguous substring of `context`, or `none` (Python `-1`).
Python returns `0` for an empty needle, which this definition reproduces. -/
def strFind (answer : List Char) : List Char → Option Nat
  | [] => if answer.isPrefixOf [] then some 0 else none
  | c :: cs =>
    if answer.isPrefixOf (c :: cs) then some 0
    else (strFind answer cs).map (· + 1)

/-- `find_answer_span` from `clean_translations.py`:
`start_idx = context.find(answer); if start_idx == -1: return None;
return (start_idx, start_idx + len(answer))`. -/
def find_answer_span (context answer : List Char) : Option (Nat × Nat) :=
  match strFind answer context with
  | none => none
  | some start_idx => some (start_idx, start_idx + answer.length)

/-- One character of the regex character class `[a-zA-Z]`. -/
def isEnglishChar (c : Char) : Bool :=
  ('a' ≤ c && c ≤ 'z') || ('A' ≤ c && c ≤ 'Z')

/-- `contains_english` from `clean_translations.py`:
`bool(re.search(r'[a-zA-Z]', text))`. -/
def contains_english (text : List Char) : Bool :=
  text.any isEnglishChar

/-- A SQuAD answer object `{text, answer_start}`; `answer_start` is the
(possibly stale) original offset, `-1` when the key is absent
(`answer.get('answer_start', -1)`). -/
structure Answer where
  text : List Char
  answer_start : Int
deriving Repr, DecidableEq

/-- The dict built by `verify_and_correct_example`.  The keys
`corrected_start` / `corrected_end` are only present (`some`) when the span
was found, exactly as in the Python dict. -/
structure VerifyResult where
  text : List Char
  original_start : Int
  is_valid : Bool
  error : Option (List Char)
  corrected_start : Option Nat
  corrected_end : Option Nat
deriving Repr, DecidableEq

/-- The error string `'Answer text not found in context'`. -/
def errNotFound : List Char := ("Answer text not found in context").toList

/-- The error string `'Contains English characters'`. -/
def errEnglish : List Char := ("Contains English characters").toList

/-- `verify_and_correct_example` from `clean_translations.py`. -/
def verify_and_correct_example (context : List Char) (answer : Answer) :
    VerifyResult :=
  let answer_text := answer.text
  match find_answer_span context answer_text with
  | none =>
    { text := answer_text
      original_start := answer.answer_start
      is_valid := false
      error := some errNotFound
      corrected_start := none
      corrected_end := none }
  | some span =>
    { text := answer_text
      original_start := answer.answer_start
      is_valid := true
      error := none
      corrected_start := some span.1
      corrected_end := some span.2 }

/-- A SQuAD QA pair `{id, question, answers}`. -/
structure QA where
  id : List Char
  question : List Char
  answers : List Answer
deriving Repr, DecidableEq

/-- A SQuAD paragraph `{context, qas}`. -/
structure Paragraph where
  context : List Char
  qas : List QA
deriving Repr, DecidableEq

/-- A SQuAD article `{title, paragraphs}`. -/
structure Article where
  title : List Char
  paragraphs : List Paragraph
deriving Repr, DecidableEq

/-- A SQuAD dataset `{version, data}`. -/
structure Dataset where
  version : List Char
  data : List Article
deriving Repr, DecidableEq

/-- An entry of the error report list.  The `error` field is `Option` because
the Python code copies `verification['error']`, which is typed `Optional`. -/
structure ErrorReport where
  id : List Char
  question : List Char
  context : List Char
  answer : Answer
  error : Option (List Char)
deriving Repr, DecidableEq

/-- The body of the innermost loop of `clean_squad_dataset` for one QA pair:
either a cleaned QA (`Sum.inl`) or an error report (`Sum.inr`).  The outer
`none` models the `IndexError` of `qa['answers'][0]` on an empty answers
list, and the (unreachable) `KeyError` of the optional dict keys. -/
def processQA (context : List Char) (qa : QA) :
    Option (QA ⊕ ErrorReport) :=
  match qa.answers with
  | [] => none
  | answer :: _ =>
    let question := qa.question
    if contains_english question || contains_english answer.text then
      some (Sum.inr
        { id := qa.id
          question := question
          context := context
          answer := answer
          error := some errEnglish })
    else
      let verification := verify_and_correct_example context answer
      if verification.is_valid then
        match verification.corrected_start with
        | none => none
        | some s =>
          some (Sum.inl
            { id := qa.id
              question := question
              answers := [{ text := verification.text
                            answer_start := (s : Int) }] })
      else
        some (Sum.inr
          { id := qa.id
            question := question
            context := context
            answer := answer
            error := verification.error })

/-- The `for qa in para['qas']` loop: returns the accumulated
`cleaned_qas` and the error reports appended by this paragraph, in order. -/
def processQAs (context : List Char) : List QA → Option (List QA × List ErrorReport)
  | [] => some ([], [])
  | qa :: rest =>
    match processQA context qa, processQAs context rest with
    | some (Sum.inl c), some (cs, es) => some (c :: cs, es)
    | some (Sum.inr e), some (cs, es) => some (cs, e :: es)
    | _, _ => none

/-- The paragraph step: keep the paragraph only when `cleaned_qas` is
non-empty (`if cleaned_qas:`); errors are reported either way. -/
def processPara (para : Paragraph) : Option (Option Paragraph × List ErrorReport) :=
  match processQAs para.context para.qas with
  | none => none
  | some (cleaned_qas, errs) =>
    some (if cleaned_qas = [] then none
          else some { context := para.context, qas := cleaned_qas }, errs)

/-- The `for para in article['paragraphs']` loop. -/
def processParas : List Paragraph → Option (List Paragraph × List ErrorReport)
  | [] => some ([], [])
  | p :: rest =>
    match processPara p, processParas rest with
    | some (op, errs₁), some (ps, errs₂) =>
      some ((match op with
             | some cp => cp :: ps
             | none => ps), errs₁ ++ errs₂)
    | _, _ => none

/-- The article step: keep the article only when its cleaned paragraph list
is non-empty (`if cleaned_article['paragraphs']:`). -/
def processArticle (article : Article) :
    Option (Option Article × List ErrorReport) :=
  match processParas article.paragraphs with
  | none => none
  | some (ps, errs) =>
    some (if ps = [] then none
          else some { title := article.title, paragraphs := ps }, errs)

/-- The `for article in data['data']` loop. -/
def processArticles : List Article → Option (List Article × List ErrorReport)
  | [] => some ([], [])
  | a :: rest =>
    match processArticle a, processArticles rest with
    | some (oa, errs₁), some (as, errs₂) =>
      some ((match oa with
             | some ca => ca :: as
             | none => as), errs₁ ++ errs₂)
    | _, _ => none

/-- `clean_squad_dataset` from `clean_translations.py`: returns the cleaned
dataset and the error-report list.  `none` models an uncaught exception
(only possible when some QA pair has an empty `answers` list). -/
def clean_squad_dataset (data : Dataset) : Option (Dataset × List ErrorReport) :=
  match processArticles data.data with
  | none => none
  | some (arts, errs) =>
    some ({ version := data.version, data := arts }, errs)

/-- Total number of QA pairs in a dataset (the summary count computed in the
script's `__main__` block). -/
def countQAs (d : Dataset) : Nat :=
  (d.data.map (fun a => (a.paragraphs.map (fun p => p.qas.length)).sum)).sum

/-- Number of QA pairs in a list of paragraphs. -/
def countP (ps : List Paragraph) : Nat :=
  (ps.map (fun p => p.qas.length)).sum

/-- Number of QA pairs in a list of articles. -/
def countA (arts : List Article) : Nat :=
  (arts.map (fun a => countP a.paragraphs)).sum

/-- Provenance relation: cleaned QA pair `c` is what the loop body emitted
for input QA pair `q` under context `context`. -/
def QAFrom (context : List Char) (c q : QA) : Prop :=
  processQA context q = some (Sum.inl c)

/-- Provenance relation: cleaned paragraph `p'` was built from input
paragraph `p` — same context, and its QA list is an in-order selection of
processed input QA pairs. -/
def ParaFrom (p' p : Paragraph) : Prop :=
  p'.context = p.context ∧
    List.SublistForall₂ (QAFrom p.context) p'.qas p.qas

/-- Provenance relation: cleaned article `a'` was built from input article
`a` — same title, and its paragraphs are an in-order selection of processed
input paragraphs. -/
def ArticleFrom (a' a : Article) : Prop :=
  a'.title = a.title ∧
    List.SublistForall₂ ParaFrom a'.paragraphs a.paragraphs

/-! ### Concrete sample data (used to instantiate the theorems below) -/

/-- Sample answer whose text occurs in the sample context, with a stale
offset (99). -/
def wAnswerParis : Answer := { text := ("ΠΑΡΙΣΙ").toList, answer_start := 99 }

/-- Sample answer whose text does not occur in the sample context. -/
def wAnswerLondon : Answer := { text := ("ΛΟΝΔΙΝΟ").toList, answer_start := 0 }

/-- Sample context; `ΠΑΡΙΣΙ` occurs twice, at character indices 2 and 9. -/
def wContext : List Char := ("ΞΞΠΑΡΙΣΙ ΠΑΡΙΣΙ").toList

/-- Sample QA pair that survives cleaning. -/
def wQA1 : QA :=
  { id := ("1").toList, question := ("ΓΙΑΤΙ").toList, answers := [wAnswerParis] }

/-- Sample QA pair whose answer text is not found in the context. -/
def wQA2 : QA :=
  { id := ("2").toList, question := ("ΓΙΑΤΙ").toList, answers := [wAnswerLondon] }

/-- Sample QA pair whose question contains Latin letters. -/
def wQA3 : QA :=
  { id := ("3").toList, question := ("why").toList, answers := [wAnswerParis] }

/-- Sample paragraph holding the three QA pairs above. -/
def wPara : Paragraph := { context := wContext, qas := [wQA1, wQA2, wQA3] }

/-- Sample article. -/
def wArticle : Article := { title := ("Τ").toList, paragraphs := [wPara] }

/-- Sample dataset. -/
def wDataset : Dataset := { version := ("1.1").toList, data := [wArticle] }

/-- The cleaned form of `wQA1`: stale offset 99 replaced by 2, the first
occurrence of the answer text in `wContext`. -/
def wCleanedQA : QA :=
  { id := ("1").toList, question := ("ΓΙΑΤΙ").toList,
    answers := [{ text := ("ΠΑΡΙΣΙ").toList, answer_start := 2 }] }

/-- The cleaned dataset produced from `wDataset`. -/
def wCleaned : Dataset :=
  { version := ("1.1").toList,
    data := [{ title := ("Τ").toList,
               paragraphs := [{ context := wContext, qas := [wCleanedQA] }] }] }

/-- The error report emitted for `wQA2` (answer text not found). -/
def wErrLondon : ErrorReport :=
  { id := ("2").toList, question := ("ΓΙΑΤΙ").toList, context := wContext,
    answer := wAnswerLondon, error := some errNotFound }

/-- The error report emitted for `wQA3` (Latin letters in the question). -/
def wErrEnglish : ErrorReport :=
  { id := ("3").toList, question := ("why").toList, context := wContext,
    answer := wAnswerParis, error := some errEnglish }

/-- A QA pair whose answer text is the empty string. -/
def c3QA : QA :=
  { id := ("1").toList, question := ("Ε").toList,
    answers := [{ text := [], answer_start := 7 }] }

/-- A dataset holding only `c3QA`. -/
def c3Dataset : Dataset :=
  { version := ("1.1").toList,
    data := [{ title := ("Τ").toList,
               paragraphs := [{ context := ("αβ").toList, qas := [c3QA] }] }] }

/-- What the code actually emits for `c3QA`: a cleaned record at offset 0. -/
def c3CleanedQA : QA :=
  { id := ("1").toList, question := ("Ε").toList,
    answers := [{ text := [], answer_start := 0 }] }

/-- The cleaned dataset produced from `c3Dataset`. -/
def c3Cleaned : Dataset :=
  { version := ("1.1").toList,
    data := [{ title := ("Τ").toList,
               paragraphs := [{ context := ("αβ").toList,
                                qas := [c3CleanedQA] }] }] }

/-! ### Basic facts about `strFind` -/

theorem strFind_le_length {a c : List Char} {s : Nat}
    (h : strFind a c = some s) : s ≤ c.length := by
  induction c generalizing s with
  | nil =>
    simp only [strFind] at h
    split at h
    · simp_all
    · exact absurd h (by simp)
  | cons hd tl ih =>
    simp only [strFind] at h
    split at h
    · obtain rfl : 0 = s := by simpa using h
      exact Nat.zero_le _
    · rw [Option.map_eq_some'] at h
      obtain ⟨t, ht, hs⟩ := h
      subst hs
      simpa [List.length_cons] using Nat.succ_le_succ (ih ht)

theorem strFind_prefix {a c : List Char} {s : Nat}
    (h : strFind a c = some s) : a.isPrefixOf (c.drop s) = true := by
  induction c generalizing s with
  | nil =>
    simp only [strFind] at h
    split at h
    · simp_all
    · exact absurd h (by simp)
  | cons hd tl ih =>
    simp only [strFind] at h
    split at h
    · rename_i hp
      obtain rfl : 0 = s := by simpa using h
      simpa using hp
    · rw [Option.map_eq_some'] at h
      obtain ⟨t, ht, hs⟩ := h
      subst hs
      simpa [List.drop_succ_cons] using ih ht

theorem strFind_least {a c : List Char} {s : Nat}
    (h : strFind a c = some s) :
    ∀ j, j < s → a.isPrefixOf (c.drop j) = false := by
  induction c generalizing s with
  | nil =>
    simp only [strFind] at h
    split at h
    · obtain rfl : 0 = s := by simpa using h
      intro j hj; exact absurd hj (Nat.not_lt_zero j)
    · exact absurd h (by simp)
  | cons hd tl ih =>
    simp only [strFind] at h
    split at h
    · obtain rfl : 0 = s := by simpa using h
      intro j hj; exact absurd hj (Nat.not_lt_zero j)
    · rename_i hp
      rw [Option.map_eq_some'] at h
      obtain ⟨t, ht, hs⟩ := h
      subst hs
      intro j hj
      cases j with
      | zero =>
        rw [List.drop_zero]
        exact Bool.eq_false_iff.mpr hp
      | succ j' =>
        simpa [List.drop_succ_cons] using ih ht j' (Nat.lt_of_succ_lt_succ hj)

theorem strFind_of_occurs {a c : List Char} {i : Nat}
    (h : a.isPrefixOf (c.drop i) = true) :
    ∃ s, strFind a c = some s ∧ s ≤ i := by
  induction c generalizing i with
  | nil =>
    rw [List.drop_nil] at h
    exact ⟨0, by simp [strFind, h], Nat.zero_le i⟩
  | cons hd tl ih =>
    by_cases hp : a.isPrefixOf (hd :: tl) = true
    · exact ⟨0, by simp [strFind, hp], Nat.zero_le i⟩
    · cases i with
      | zero => exact absurd (by rwa [List.drop_zero] at h) hp
      | succ i' =>
        rw [List.drop_succ_cons] at h
        obtain ⟨t, ht, hle⟩ := ih h
        exact ⟨t + 1, by simp [strFind, hp, ht], Nat.succ_le_succ hle⟩

theorem strFind_none_iff {a c : List Char} :
    strFind a c = none ↔ ∀ i, a.isPrefixOf (c.drop i) = false := by
  constructor
  · intro h i
    by_contra hocc
    obtain ⟨s, hs, _⟩ := strFind_of_occurs (eq_true_of_ne_false hocc)
    rw [h] at hs
    exact Option.noConfusion hs
  · intro h
    cases h2 : strFind a c with
    | none => rfl
    | some s =>
      have := strFind_prefix h2
      rw [h s] at this
      exact Bool.noConfusion this

theorem isPrefixOf_take {a l : List Char} (h : a.isPrefixOf l = true) :
    l.take a.length = a := by
  have hp := List.isPrefixOf_iff_prefix.mp h
  exact (List.prefix_iff_eq_take.mp hp).symm

theorem isPrefixOf_length_le {a l : List Char} (h : a.isPrefixOf l = true) :
    a.length ≤ l.length :=
  (List.isPrefixOf_iff_prefix.mp h).length_le

/-! ### Equation and inversion lemmas for `processQA` -/

theorem processQA_none {ctx : List Char} {qa : QA} (ha : qa.answers = []) :
    processQA ctx qa = none := by
  simp [processQA, ha]

theorem processQA_english {ctx : List Char} {qa : QA} {ans : Answer}
    {rest : List Answer} (ha : qa.answers = ans :: rest)
    (he : (contains_english qa.question || contains_english ans.text) = true) :
    processQA ctx qa = some (Sum.inr
      { id := qa.id, question := qa.question, context := ctx,
        answer := ans, error := some errEnglish }) := by
  simp [processQA, ha, he]

theorem processQA_notfound {ctx : List Char} {qa : QA} {ans : Answer}
    {rest : List Answer} (ha : qa.answers = ans :: rest)
    (he : (contains_english qa.question || contains_english ans.text) = false)
    (hf : strFind ans.text ctx = none) :
    processQA ctx qa = some (Sum.inr
      { id := qa.id, question := qa.question, context := ctx,
        answer := ans, error := some errNotFound }) := by
  simp [processQA, ha, he, verify_and_correct_example, find_answer_span, hf]

theorem processQA_found {ctx : List Char} {qa : QA} {ans : Answer}
    {rest : List Answer} {s : Nat} (ha : qa.answers = ans :: rest)
    (he : (contains_english qa.question || contains_english ans.text) = false)
    (hf : strFind ans.text ctx = some s) :
    processQA ctx qa = some (Sum.inl
      { id := qa.id, question := qa.question,
        answers := [{ text := ans.text, answer_start := (s : Int) }] }) := by
  simp [processQA, ha, he, verify_and_correct_example, find_answer_span, hf]

theorem processQA_isSome {ctx : List Char} {qa : QA} {ans : Answer}
    {rest : List Answer} (ha : qa.answers = ans :: rest) :
    ∃ r, processQA ctx qa = some r := by
  by_cases he : (contains_english qa.question || contains_english ans.text) = true
  · exact ⟨_, processQA_english ha he⟩
  · have he2 := Bool.eq_false_iff.mpr he
    cases hsf : strFind ans.text ctx with
    | none => exact ⟨_, processQA_notfound ha he2 hsf⟩
    | some s => exact ⟨_, processQA_found ha he2 hsf⟩

theorem processQA_inl_inv {ctx : List Char} {qa c : QA}
    (h : processQA ctx qa = some (Sum.inl c)) :
    ∃ ans rest s, qa.answers = ans :: rest ∧
      (contains_english qa.question || contains_english ans.text) = false ∧
      strFind ans.text ctx = some s ∧
      c = { id := qa.id, question := qa.question,
            answers := [{ text := ans.text, answer_start := (s : Int) }] } := by
  cases ha : qa.answers with
  | nil => rw [processQA_none ha] at h; exact Option.noConfusion h
  | cons ans rest =>
    by_cases he : (contains_english qa.question || contains_english ans.text) = true
    · rw [processQA_english ha he] at h
      simp at h
    · have he2 := Bool.eq_false_iff.mpr he
      cases hsf : strFind ans.text ctx with
      | none =>
        rw [processQA_notfound ha he2 hsf] at h
        simp at h
      | some s =>
        rw [processQA_found ha he2 hsf] at h
        simp only [Option.some_inj] at h
        exact ⟨ans, rest, s, rfl, he2, hsf, (Sum.inl_injective h).symm⟩

/-! ### Lemmas about the inner QA loop `processQAs` -/

theorem sublistForall₂_mem {α β : Type} {R : α → β → Prop} {l₁ : List α}
    {l₂ : List β} (h : List.SublistForall₂ R l₁ l₂) {a : α} (ha : a ∈ l₁) :
    ∃ b ∈ l₂, R a b := by
  induction h with
  | nil => cases ha
  | cons hr hs ih =>
    rcases List.mem_cons.mp ha with rfl | ha2
    · exact ⟨_, List.mem_cons_self _ _, hr⟩
    · obtain ⟨b, hb, hrb⟩ := ih ha2
      exact ⟨b, List.mem_cons_of_mem _ hb, hrb⟩
  | cons_right hs ih =>
    obtain ⟨b, hb, hrb⟩ := ih ha
    exact ⟨b, List.mem_cons_of_mem _ hb, hrb⟩

theorem processQAs_length {ctx : List Char} {qas cs : List QA}
    {es : List ErrorReport} (h : processQAs ctx qas = some (cs, es)) :
    cs.length + es.length = qas.length := by
  induction qas generalizing cs es with
  | nil =>
    simp only [processQAs, Option.some_inj, Prod.mk.injEq] at h
    obtain ⟨rfl, rfl⟩ := h
    simp
  | cons qa rest ih =>
    simp only [processQAs] at h
    split at h
    · rename_i c cs' es' heq₁ heq₂
      simp only [Option.some_inj, Prod.mk.injEq] at h
      obtain ⟨rfl, rfl⟩ := h
      have := ih heq₂
      simp only [List.length_cons]
      omega
    · rename_i e cs' es' heq₁ heq₂
      simp only [Option.some_inj, Prod.mk.injEq] at h
      obtain ⟨rfl, rfl⟩ := h
      have := ih heq₂
      simp only [List.length_cons]
      omega
    · exact Option.noConfusion h

theorem processQAs_some_of_mem {ctx : List Char} {qas cs : List QA}
    {es : List ErrorReport} {qa : QA} (h : processQAs ctx qas = some (cs, es))
    (hmem : qa ∈ qas) : ∃ r, processQA ctx qa = some r := by
  induction qas generalizing cs es with
  | nil => cases hmem
  | cons qa0 rest ih =>
    simp only [processQAs] at h
    split at h
    · rename_i c cs' es' heq₁ heq₂
      rcases List.mem_cons.mp hmem with rfl | hmem2
      · exact ⟨_, heq₁⟩
      · exact ih heq₂ hmem2
    · rename_i e cs' es' heq₁ heq₂
      rcases List.mem_cons.mp hmem with rfl | hmem2
      · exact ⟨_, heq₁⟩
      · exact ih heq₂ hmem2
    · exact Option.noConfusion h

theorem processQAs_err_mem {ctx : List Char} {qas cs : List QA}
    {es : List ErrorReport} {qa : QA} {e : ErrorReport}
    (h : processQAs ctx qas = some (cs, es)) (hmem : qa ∈ qas)
    (hq : processQA ctx qa = some (Sum.inr e)) : e ∈ es := by
  induction qas generalizing cs es with
  | nil => cases hmem
  | cons qa0 rest ih =>
    simp only [processQAs] at h
    split at h
    · rename_i c cs' es' heq₁ heq₂
      simp only [Option.some_inj, Prod.mk.injEq] at h
      obtain ⟨rfl, rfl⟩ := h
      rcases List.mem_cons.mp hmem with rfl | hmem2
      · rw [hq] at heq₁; simp at heq₁
      · exact ih heq₂ hmem2
    · rename_i e' cs' es' heq₁ heq₂
      simp only [Option.some_inj, Prod.mk.injEq] at h
      obtain ⟨rfl, rfl⟩ := h
      rcases List.mem_cons.mp hmem with rfl | hmem2
      · rw [hq] at heq₁
        simp only [Option.some_inj] at heq₁
        rw [Sum.inr_injective heq₁]
        exact List.mem_cons_self _ _
      · exact List.mem_cons_of_mem _ (ih heq₂ hmem2)
    · exact Option.noConfusion h

theorem processQAs_sublist {ctx : List Char} {qas cs : List QA}
    {es : List ErrorReport} (h : processQAs ctx qas = some (cs, es)) :
    List.SublistForall₂ (fun c qa => processQA ctx qa = some (Sum.inl c)) cs qas := by
  induction qas generalizing cs es with
  | nil =>
    simp only [processQAs, Option.some_inj, Prod.mk.injEq] at h
    obtain ⟨rfl, rfl⟩ := h
    exact List.SublistForall₂.nil
  | cons qa0 rest ih =>
    simp only [processQAs] at h
    split at h
    · rename_i c cs' es' heq₁ heq₂
      simp only [Option.some_inj, Prod.mk.injEq] at h
      obtain ⟨rfl, rfl⟩ := h
      exact List.SublistForall₂.cons heq₁ (ih heq₂)
    · rename_i e cs' es' heq₁ heq₂
      simp only [Option.some_inj, Prod.mk.injEq] at h
      obtain ⟨rfl, rfl⟩ := h
      exact List.SublistForall₂.cons_right (ih heq₂)
    · exact Option.noConfusion h

theorem processQAs_isSome {ctx : List Char} {qas : List QA}
    (h : ∀ qa ∈ qas, qa.answers ≠ []) :
    ∃ out, processQAs ctx qas = some out := by
  induction qas with
  | nil => exact ⟨([], []), rfl⟩
  | cons qa rest ih =>
    have hne := h qa (List.mem_cons_self _ _)
    obtain ⟨ans, rest', ha⟩ : ∃ ans rest', qa.answers = ans :: rest' := by
      cases hqa : qa.answers with
      | nil => exact absurd hqa hne
      | cons x xs => exact ⟨x, xs, rfl⟩
    obtain ⟨r, hr⟩ := @processQA_isSome ctx qa ans rest' ha
    obtain ⟨⟨cs, es⟩, hrest⟩ := ih (fun q hq => h q (List.mem_cons_of_mem _ hq))
    cases r with
    | inl c => exact ⟨(c :: cs, es), by simp [processQAs, hr, hrest]⟩
    | inr e => exact ⟨(cs, e :: es), by simp [processQAs, hr, hrest]⟩

/-! ### Lemmas about the paragraph loop -/

theorem processPara_inv {p : Paragraph} {op : Option Paragraph}
    {errs : List ErrorReport} (h : processPara p = some (op, errs)) :
    ∃ cs, processQAs p.context p.qas = some (cs, errs) ∧
      op = (if cs = [] then none
            else some { context := p.context, qas := cs }) := by
  simp only [processPara] at h
  split at h
  · exact Option.noConfusion h
  · rename_i cs errs' heq
    simp only [Option.some_inj, Prod.mk.injEq] at h
    obtain ⟨rfl, rfl⟩ := h
    exact ⟨cs, heq, rfl⟩

theorem processPara_eq {p : Paragraph} {cs : List QA} {es : List ErrorReport}
    (h : processQAs p.context p.qas = some (cs, es)) :
    processPara p = some
      (if cs = [] then none else some { context := p.context, qas := cs }, es) := by
  simp [processPara, h]

theorem processParas_length {ps out : List Paragraph} {es : List ErrorReport}
    (h : processParas ps = some (out, es)) :
    countP out + es.length = countP ps := by
  induction ps generalizing out es with
  | nil =>
    simp only [processParas, Option.some_inj, Prod.mk.injEq] at h
    obtain ⟨rfl, rfl⟩ := h
    simp [countP]
  | cons p rest ih =>
    simp only [processParas] at h
    split at h
    · rename_i op errs₁ ps' errs₂ heq₁ heq₂
      simp only [Option.some_inj, Prod.mk.injEq] at h
      obtain ⟨rfl, rfl⟩ := h
      obtain ⟨cs, hqs, hop⟩ := processPara_inv heq₁
      have hlen := processQAs_length hqs
      have hrest := ih heq₂
      by_cases hcs : cs = []
      · subst hcs
        rw [if_pos rfl] at hop
        subst hop
        simp only [countP, List.map_cons, List.sum_cons, List.length_nil,
          List.length_append] at *
        omega
      · rw [if_neg hcs] at hop
        subst hop
        simp only [countP, List.map_cons, List.sum_cons,
          List.length_append] at *
        omega
    · exact Option.noConfusion h

theorem processParas_some_of_mem {ps out : List Paragraph}
    {es : List ErrorReport} {p : Paragraph} (h : processParas ps = some (out, es))
    (hmem : p ∈ ps) : ∃ r, processPara p = some r := by
  induction ps generalizing out es with
  | nil => cases hmem
  | cons p0 rest ih =>
    simp only [processParas] at h
    split at h
    · rename_i op errs₁ ps' errs₂ heq₁ heq₂
      rcases List.mem_cons.mp hmem with rfl | hmem2
      · exact ⟨_, heq₁⟩
      · exact ih heq₂ hmem2
    · exact Option.noConfusion h

theorem processParas_err_mem {ps out : List Paragraph} {es errsP : List ErrorReport}
    {p : Paragraph} {op : Option Paragraph} {e : ErrorReport}
    (h : processParas ps = some (out, es)) (hmem : p ∈ ps)
    (hp : processPara p = some (op, errsP)) (he : e ∈ errsP) : e ∈ es := by
  induction ps generalizing out es with
  | nil => cases hmem
  | cons p0 rest ih =>
    simp only [processParas] at h
    split at h
    · rename_i op' errs₁ ps' errs₂ heq₁ heq₂
      simp only [Option.some_inj, Prod.mk.injEq] at h
      obtain ⟨rfl, rfl⟩ := h
      rcases List.mem_cons.mp hmem with rfl | hmem2
      · rw [hp] at heq₁
        simp only [Option.some_inj, Prod.mk.injEq] at heq₁
        obtain ⟨rfl, rfl⟩ := heq₁
        exact List.mem_append_left _ he
      · exact List.mem_append_right _ (ih heq₂ hmem2)
    · exact Option.noConfusion h

theorem processParas_out_sound {ps out : List Paragraph} {es : List ErrorReport}
    {p' : Paragraph} (h : processParas ps = some (out, es)) (hmem : p' ∈ out) :
    ∃ p ∈ ps, ∃ es', processQAs p.context p.qas = some (p'.qas, es') ∧
      p'.context = p.context ∧ p'.qas ≠ [] := by
  induction ps generalizing out es with
  | nil =>
    simp only [processParas, Option.some_inj, Prod.mk.injEq] at h
    obtain ⟨rfl, rfl⟩ := h
    cases hmem
  | cons p0 rest ih =>
    simp only [processParas] at h
    split at h
    · rename_i op errs₁ ps' errs₂ heq₁ heq₂
      simp only [Option.some_inj, Prod.mk.injEq] at h
      obtain ⟨rfl, rfl⟩ := h
      obtain ⟨cs, hqs, hop⟩ := processPara_inv heq₁
      by_cases hcs : cs = []
      · subst hcs
        rw [if_pos rfl] at hop
        subst hop
        obtain ⟨p1, hp1, hrest⟩ := ih heq₂ hmem
        exact ⟨p1, List.mem_cons_of_mem _ hp1, hrest⟩
      · rw [if_neg hcs] at hop
        subst hop
        rcases List.mem_cons.mp hmem with rfl | hmem2
        · exact ⟨p0, List.mem_cons_self _ _, _, hqs, rfl, hcs⟩
        · obtain ⟨p1, hp1, hrest⟩ := ih heq₂ hmem2
          exact ⟨p1, List.mem_cons_of_mem _ hp1, hrest⟩
    · exact Option.noConfusion h

theorem processParas_complete {ps out : List Paragraph} {es es' : List ErrorReport}
    {p : Paragraph} {cs : List QA} (h : processParas ps = some (out, es))
    (hmem : p ∈ ps) (hqs : processQAs p.context p.qas = some (cs, es'))
    (hcs : cs ≠ []) : { context := p.context, qas := cs : Paragraph } ∈ out := by
  induction ps generalizing out es with
  | nil => cases hmem
  | cons p0 rest ih =>
    simp only [processParas] at h
    split at h
    · rename_i op errs₁ ps' errs₂ heq₁ heq₂
      simp only [Option.some_inj, Prod.mk.injEq] at h
      obtain ⟨rfl, rfl⟩ := h
      rcases List.mem_cons.mp hmem with rfl | hmem2
      · rw [processPara_eq hqs] at heq₁
        simp only [Option.some_inj, Prod.mk.injEq] at heq₁
        obtain ⟨rfl, rfl⟩ := heq₁
        rw [if_neg hcs]
        exact List.mem_cons_self _ _
      · have := ih heq₂ hmem2
        cases op with
        | none => exact this
        | some cp => exact List.mem_cons_of_mem _ this
    · exact Option.noConfusion h

theorem processParas_sublist {ps out : List Paragraph} {es : List ErrorReport}
    (h : processParas ps = some (out, es)) :
    List.SublistForall₂ ParaFrom out ps := by
  induction ps generalizing out es with
  | nil =>
    simp only [processParas, Option.some_inj, Prod.mk.injEq] at h
    obtain ⟨rfl, rfl⟩ := h
    exact List.SublistForall₂.nil
  | cons p0 rest ih =>
    simp only [processParas] at h
    split at h
    · rename_i op errs₁ ps' errs₂ heq₁ heq₂
      simp only [Option.some_inj, Prod.mk.injEq] at h
      obtain ⟨rfl, rfl⟩ := h
      obtain ⟨cs, hqs, hop⟩ := processPara_inv heq₁
      by_cases hcs : cs = []
      · subst hcs
        rw [if_pos rfl] at hop
        subst hop
        exact List.SublistForall₂.cons_right (ih heq₂)
      · rw [if_neg hcs] at hop
        subst hop
        exact List.SublistForall₂.cons ⟨rfl, processQAs_sublist hqs⟩ (ih heq₂)
    · exact Option.noConfusion h

theorem processParas_isSome {ps : List Paragraph}
    (h : ∀ p ∈ ps, ∀ qa ∈ p.qas, qa.answers ≠ []) :
    ∃ out, processParas ps = some out := by
  induction ps with
  | nil => exact ⟨([], []), rfl⟩
  | cons p rest ih =>
    obtain ⟨⟨cs, es⟩, hqs⟩ :=
      @processQAs_isSome p.context p.qas (h p (List.mem_cons_self _ _))
    obtain ⟨⟨ps', es₂⟩, hrest⟩ := ih (fun q hq => h q (List.mem_cons_of_mem _ hq))
    by_cases hcs : cs = []
    · subst hcs
      exact ⟨(ps', es ++ es₂), by simp [processParas, processPara_eq hqs, hrest]⟩
    · refine ⟨({ context := p.context, qas := cs } :: ps', es ++ es₂), ?_⟩
      simp [processParas, processPara_eq hqs, hrest, hcs]

/-! ### Lemmas about the article loop -/

theorem processArticle_inv {a : Article} {oa : Option Article}
    {errs : List ErrorReport} (h : processArticle a = some (oa, errs)) :
    ∃ ps, processParas a.paragraphs = some (ps, errs) ∧
      oa = (if ps = [] then none
            else some { title := a.title, paragraphs := ps }) := by
  simp only [processArticle] at h
  split at h
  · exact Option.noConfusion h
  · rename_i ps errs' heq
    simp only [Option.some_inj, Prod.mk.injEq] at h
    obtain ⟨rfl, rfl⟩ := h
    exact ⟨ps, heq, rfl⟩

theorem processArticle_eq {a : Article} {ps : List Paragraph}
    {es : List ErrorReport} (h : processParas a.paragraphs = some (ps, es)) :
    processArticle a = some
      (if ps = [] then none
       else some { title := a.title, paragraphs := ps }, es) := by
  simp [processArticle, h]

theorem processArticles_length {arts out : List Article} {es : List ErrorReport}
    (h : processArticles arts = some (out, es)) :
    countA out + es.length = countA arts := by
  induction arts generalizing out es with
  | nil =>
    simp only [processArticles, Option.some_inj, Prod.mk.injEq] at h
    obtain ⟨rfl, rfl⟩ := h
    simp [countA]
  | cons a rest ih =>
    simp only [processArticles] at h
    split at h
    · rename_i oa errs₁ as' errs₂ heq₁ heq₂
      simp only [Option.some_inj, Prod.mk.injEq] at h
      obtain ⟨rfl, rfl⟩ := h
      obtain ⟨ps, hps, hoa⟩ := processArticle_inv heq₁
      have hlen := processParas_length hps
      have hrest := ih heq₂
      by_cases hps0 : ps = []
      · subst hps0
        rw [if_pos rfl] at hoa
        subst hoa
        simp only [countA, countP, List.map_cons, List.sum_cons,
          List.map_nil, List.sum_nil, List.length_append] at *
        omega
      · rw [if_neg hps0] at hoa
        subst hoa
        simp only [countA, countP, List.map_cons, List.sum_cons,
          List.length_append] at *
        omega
    · exact Option.noConfusion h

theorem processArticles_some_of_mem {arts out : List Article}
    {es : List ErrorReport} {a : Article} (h : processArticles arts = some (out, es))
    (hmem : a ∈ arts) : ∃ r, processArticle a = some r := by
  induction arts generalizing out es with
  | nil => cases hmem
  | cons a0 rest ih =>
    simp only [processArticles] at h
    split at h
    · rename_i oa errs₁ as' errs₂ heq₁ heq₂
      rcases List.mem_cons.mp hmem with rfl | hmem2
      · exact ⟨_, heq₁⟩
      · exact ih heq₂ hmem2
    · exact Option.noConfusion h

theorem processArticles_err_mem {arts out : List Article} {es errsA : List ErrorReport}
    {a : Article} {oa : Option Article} {e : ErrorReport}
    (h : processArticles arts = some (out, es)) (hmem : a ∈ arts)
    (ha : processArticle a = some (oa, errsA)) (he : e ∈ errsA) : e ∈ es := by
  induction arts generalizing out es with
  | nil => cases hmem
  | cons a0 rest ih =>
    simp only [processArticles] at h
    split at h
    · rename_i oa' errs₁ as' errs₂ heq₁ heq₂
      simp only [Option.some_inj, Prod.mk.injEq] at h
      obtain ⟨rfl, rfl⟩ := h
      rcases List.mem_cons.mp hmem with rfl | hmem2
      · rw [ha] at heq₁
        simp only [Option.some_inj, Prod.mk.injEq] at heq₁
        obtain ⟨rfl, rfl⟩ := heq₁
        exact List.mem_append_left _ he
      · exact List.mem_append_right _ (ih heq₂ hmem2)
    · exact Option.noConfusion h

theorem processArticles_out_sound {arts out : List Article} {es : List ErrorReport}
    {a' : Article} (h : processArticles arts = some (out, es)) (hmem : a' ∈ out) :
    ∃ a ∈ arts, ∃ es', processParas a.paragraphs = some (a'.paragraphs, es') ∧
      a'.title = a.title ∧ a'.paragraphs ≠ [] := by
  induction arts generalizing out es with
  | nil =>
    simp only [processArticles, Option.some_inj, Prod.mk.injEq] at h
    obtain ⟨rfl, rfl⟩ := h
    cases hmem
  | cons a0 rest ih =>
    simp only [processArticles] at h
    split at h
    · rename_i oa errs₁ as' errs₂ heq₁ heq₂
      simp only [Option.some_inj, Prod.mk.injEq] at h
      obtain ⟨rfl, rfl⟩ := h
      obtain ⟨ps, hps, hoa⟩ := processArticle_inv heq₁
      by_cases hps0 : ps = []
      · subst hps0
        rw [if_pos rfl] at hoa
        subst hoa
        obtain ⟨a1, ha1, hrest⟩ := ih heq₂ hmem
        exact ⟨a1, List.mem_cons_of_mem _ ha1, hrest⟩
      · rw [if_neg hps0] at hoa
        subst hoa
        rcases List.mem_cons.mp hmem with rfl | hmem2
        · exact ⟨a0, List.mem_cons_self _ _, _, hps, rfl, hps0⟩
        · obtain ⟨a1, ha1, hrest⟩ := ih heq₂ hmem2
          exact ⟨a1, List.mem_cons_of_mem _ ha1, hrest⟩
    · exact Option.noConfusion h

theorem processArticles_complete {arts out : List Article} {es es' : List ErrorReport}
    {a : Article} {ps : List Paragraph} (h : processArticles arts = some (out, es))
    (hmem : a ∈ arts) (hps : processParas a.paragraphs = some (ps, es'))
    (hps0 : ps ≠ []) : { title := a.title, paragraphs := ps : Article } ∈ out := by
  induction arts generalizing out es with
  | nil => cases hmem
  | cons a0 rest ih =>
    simp only [processArticles] at h
    split at h
    · rename_i oa errs₁ as' errs₂ heq₁ heq₂
      simp only [Option.some_inj, Prod.mk.injEq] at h
      obtain ⟨rfl, rfl⟩ := h
      rcases List.mem_cons.mp hmem with rfl | hmem2
      · rw [processArticle_eq hps] at heq₁
        simp only [Option.some_inj, Prod.mk.injEq] at heq₁
        obtain ⟨rfl, rfl⟩ := heq₁
        rw [if_neg hps0]
        exact List.mem_cons_self _ _
      · have := ih heq₂ hmem2
        cases oa with
        | none => exact this
        | some ca => exact List.mem_cons_of_mem _ this
    · exact Option.noConfusion h

theorem processArticles_sublist {arts out : List Article} {es : List ErrorReport}
    (h : processArticles arts = some (out, es)) :
    List.SublistForall₂ ArticleFrom out arts := by
  induction arts generalizing out es with
  | nil =>
    simp only [processArticles, Option.some_inj, Prod.mk.injEq] at h
    obtain ⟨rfl, rfl⟩ := h
    exact List.SublistForall₂.nil
  | cons a0 rest ih =>
    simp only [processArticles] at h
    split at h
    · rename_i oa errs₁ as' errs₂ heq₁ heq₂
      simp only [Option.some_inj, Prod.mk.injEq] at h
      obtain ⟨rfl, rfl⟩ := h
      obtain ⟨ps, hps, hoa⟩ := processArticle_inv heq₁
      by_cases hps0 : ps = []
      · subst hps0
        rw [if_pos rfl] at hoa
        subst hoa
        exact List.SublistForall₂.cons_right (ih heq₂)
      · rw [if_neg hps0] at hoa
        subst hoa
        exact List.SublistForall₂.cons ⟨rfl, processParas_sublist hps⟩ (ih heq₂)
    · exact Option.noConfusion h

theorem processArticles_isSome {arts : List Article}
    (h : ∀ a ∈ arts, ∀ p ∈ a.paragraphs, ∀ qa ∈ p.qas, qa.answers ≠ []) :
    ∃ out, processArticles arts = some out := by
  induction arts with
  | nil => exact ⟨([], []), rfl⟩
  | cons a rest ih =>
    obtain ⟨⟨ps, es⟩, hps⟩ := processParas_isSome (h a (List.mem_cons_self _ _))
    obtain ⟨⟨as', es₂⟩, hrest⟩ := ih (fun x hx => h x (List.mem_cons_of_mem _ hx))
    by_cases hps0 : ps = []
    · subst hps0
      exact ⟨(as', es ++ es₂), by simp [processArticles, processArticle_eq hps, hrest]⟩
    · refine ⟨({ title := a.title, paragraphs := ps } :: as', es ++ es₂), ?_⟩
      simp [processArticles, processArticle_eq hps, hrest, hps0]

/-! ### Lemmas about `clean_squad_dataset` and `find_answer_span` -/

theorem clean_inv {d cleaned : Dataset} {errs : List ErrorReport}
    (h : clean_squad_dataset d = some (cleaned, errs)) :
    processArticles d.data = some (cleaned.data, errs) ∧
      cleaned.version = d.version := by
  simp only [clean_squad_dataset] at h
  split at h
  · exact Option.noConfusion h
  · rename_i arts errs' heq
    simp only [Option.some_inj, Prod.mk.injEq] at h
    obtain ⟨rfl, rfl⟩ := h
    exact ⟨heq, rfl⟩

theorem clean_isSome {d : Dataset}
    (h : ∀ a ∈ d.data, ∀ p ∈ a.paragraphs, ∀ qa ∈ p.qas, qa.answers ≠ []) :
    ∃ out, clean_squad_dataset d = some out := by
  obtain ⟨⟨arts, errs⟩, ha⟩ := processArticles_isSome h
  exact ⟨({ version := d.version, data := arts }, errs),
    by simp [clean_squad_dataset, ha]⟩

theorem clean_err_mem {d cleaned : Dataset} {errs : List ErrorReport}
    {art : Article} {para : Paragraph} {qa : QA} {e : ErrorReport}
    (h : clean_squad_dataset d = some (cleaned, errs)) (hart : art ∈ d.data)
    (hpara : para ∈ art.paragraphs) (hqa : qa ∈ para.qas)
    (hq : processQA para.context qa = some (Sum.inr e)) : e ∈ errs := by
  obtain ⟨hpa, _⟩ := clean_inv h
  obtain ⟨⟨oa, errsA⟩, ha⟩ := processArticles_some_of_mem hpa hart
  obtain ⟨ps, hps, _⟩ := processArticle_inv ha
  obtain ⟨⟨op, errsP⟩, hp⟩ := processParas_some_of_mem hps hpara
  obtain ⟨cs, hqs, _⟩ := processPara_inv hp
  have he : e ∈ errsP := processQAs_err_mem hqs hqa hq
  have heA : e ∈ errsA := processParas_err_mem hps hpara hp he
  exact processArticles_err_mem hpa hart ha heA

theorem find_answer_span_some_iff {c a : List Char} {s e : Nat} :
    find_answer_span c a = some (s, e) ↔
      strFind a c = some s ∧ e = s + a.length := by
  unfold find_answer_span
  cases h : strFind a c with
  | none => simp
  | some t =>
    simp only [Option.some_inj, Prod.mk.injEq]
    constructor
    · rintro ⟨rfl, rfl⟩
      exact ⟨rfl, rfl⟩
    · rintro ⟨rfl, rfl⟩
      exact ⟨rfl, rfl⟩

theorem find_answer_span_none_iff {c a : List Char} :
    find_answer_span c a = none ↔ strFind a c = none := by
  unfold find_answer_span
  cases h : strFind a c <;> simp

/-! ### Claim theorems -/

/-- C1: for every context and every answer text that occurs in it,
`find_answer_span` returns `(s, s + length)` where `s` is the least
occurrence index; and every QA pair admitted into the cleaned dataset
carries `answer_start` equal to that corrected least index — never the
original stale offset, whatever it was. -/
theorem C1_first_occurrence_and_corrected_start :
    (∀ context answer : List Char,
      (∃ i, answer.isPrefixOf (context.drop i) = true) →
      ∃ s, find_answer_span context answer = some (s, s + answer.length) ∧
        answer.isPrefixOf (context.drop s) = true ∧
        ∀ j, answer.isPrefixOf (context.drop j) = true → s ≤ j) ∧
    (∀ (d cleaned : Dataset) (errs : List ErrorReport),
      clean_squad_dataset d = some (cleaned, errs) →
      ∀ a' ∈ cleaned.data, ∀ p' ∈ a'.paragraphs, ∀ q' ∈ p'.qas,
      ∀ ans ∈ q'.answers,
        ∃ s : Nat,
          find_answer_span p'.context ans.text = some (s, s + ans.text.length) ∧
          ans.answer_start = (s : Int) ∧
          ans.text.isPrefixOf (p'.context.drop s) = true ∧
          ∀ j, ans.text.isPrefixOf (p'.context.drop j) = true → s ≤ j) := by
  constructor
  · rintro context answer ⟨i, hi⟩
    obtain ⟨s, hs, _⟩ := strFind_of_occurs hi
    refine ⟨s, by simp [find_answer_span, hs], strFind_prefix hs, fun j hj => ?_⟩
    by_contra hlt
    rw [strFind_least hs j (Nat.lt_of_not_le hlt)] at hj
    exact Bool.noConfusion hj
  · intro d cleaned errs h a' ha' p' hp' q' hq' ans hans
    obtain ⟨a, haIn, esA, hpsA, htitle, _⟩ :=
      processArticles_out_sound (clean_inv h).1 ha'
    obtain ⟨p, hpIn, esP, hqsP, hctx, _⟩ := processParas_out_sound hpsA hp'
    obtain ⟨q, hqIn, hfrom⟩ := sublistForall₂_mem (processQAs_sublist hqsP) hq'
    obtain ⟨ans0, rest0, s, hqans, hfilter, hsf, hc⟩ := processQA_inl_inv hfrom
    subst hc
    simp only [List.mem_singleton] at hans
    subst hans
    rw [hctx]
    refine ⟨s, by simp [find_answer_span, hsf], rfl, strFind_prefix hsf,
      fun j hj => ?_⟩
    by_contra hlt
    rw [strFind_least hsf j (Nat.lt_of_not_le hlt)] at hj
    exact Bool.noConfusion hj

/-- Witness for C1: `ΠΑΡΙΣΙ` occurs in `wContext` at character indices 2
and 9; the locator deterministically reports the least index 2. -/
theorem C1_witness :
    ∃ s, find_answer_span wContext (("ΠΑΡΙΣΙ").toList) =
        some (s, s + (("ΠΑΡΙΣΙ").toList).length) ∧
      (("ΠΑΡΙΣΙ").toList).isPrefixOf (wContext.drop s) = true ∧
      ∀ j, (("ΠΑΡΙΣΙ").toList).isPrefixOf (wContext.drop j) = true → s ≤ j :=
  C1_first_occurrence_and_corrected_start.1 wContext (("ΠΑΡΙΣΙ").toList)
    ⟨2, by decide⟩

/-- C2: the span locator returns `none` exactly when the answer text does
not occur as a substring of the context; and every QA pair that passes the
script filter but whose answer text does not occur in its paragraph's
context yields an error report with error string
'Answer text not found in context' carrying its id, question, context and
original answer object — the report is in the error list and the pair's
processing produces an error report, not a cleaned record. -/
theorem C2_not_found_reported :
    (∀ context answer : List Char, find_answer_span context answer = none ↔
      ∀ i, answer.isPrefixOf (context.drop i) = false) ∧
    (∀ (d cleaned : Dataset) (errs : List ErrorReport),
      clean_squad_dataset d = some (cleaned, errs) →
      ∀ art ∈ d.data, ∀ para ∈ art.paragraphs, ∀ qa ∈ para.qas,
      ∀ ans rest, qa.answers = ans :: rest →
      (contains_english qa.question || contains_english ans.text) = false →
      (∀ i, ans.text.isPrefixOf (para.context.drop i) = false) →
      ({ id := qa.id, question := qa.question, context := para.context,
         answer := ans, error := some errNotFound : ErrorReport } ∈ errs ∧
       processQA para.context qa = some (Sum.inr
         { id := qa.id, question := qa.question, context := para.context,
           answer := ans, error := some errNotFound }))) := by
  constructor
  · intro context answer
    rw [find_answer_span_none_iff]
    exact strFind_none_iff
  · intro d cleaned errs h art hart para hpara qa hqa ans rest hans hfilter hnot
    have hsf : strFind ans.text para.context = none := strFind_none_iff.mpr hnot
    have hq := processQA_notfound hans hfilter hsf
    exact ⟨clean_err_mem h hart hpara hqa hq, hq⟩

/-- Witness for C2: in `wDataset`, the pair `wQA2` (answer `ΛΟΝΔΙΝΟ`, not
present in the context) ends up in the error list as `wErrLondon`. -/
theorem C2_witness :
    wErrLondon ∈ [wErrLondon, wErrEnglish] ∧
    processQA wContext wQA2 = some (Sum.inr wErrLondon) :=
  C2_not_found_reported.2 wDataset wCleaned [wErrLondon, wErrEnglish] rfl
    wArticle (by decide) wPara (by decide) wQA2 (by decide)
    wAnswerLondon [] rfl rfl
    (strFind_none_iff.mp rfl)

/-- C3 counterexample: the code returns `(0, 0)` for an empty answer text —
not NOT_FOUND — and an empty-answer QA pair does produce a cleaned record
(at offset 0), contradicting the claim as stated. -/
theorem C3_counterexample :
    find_answer_span ("αβ").toList [] = some (0, 0) ∧
    clean_squad_dataset c3Dataset = some (c3Cleaned, []) :=
  ⟨rfl, rfl⟩

/-- C3 (amended): for every context, calling the span locator with an empty
answer text returns the trivial match `(0, 0)`; an empty answer is treated
as valid (`is_valid = true`), so it can produce a cleaned record. -/
theorem C3_empty_answer_matches_at_zero :
    ∀ context : List Char,
      find_answer_span context [] = some (0, 0) ∧
      ∀ a : Int, (verify_and_correct_example context
        { text := [], answer_start := a }).is_valid = true := by
  intro context
  have hf : strFind [] context = some 0 := by
    cases context <;> simp [strFind, List.isPrefixOf]
  exact ⟨by simp [find_answer_span, hf],
    fun a => by simp [verify_and_correct_example, find_answer_span, hf]⟩

/-- C4: offsets are character counts, not byte counts: in the embedding the
context is a list of Unicode characters (as in Python), and on the
non-Latin context "αβγδε" the answer "γδ" is located at the character range
(2, 4) — in UTF-8 bytes it would start at 4. -/
theorem C4_character_offsets :
    find_answer_span ("αβγδε").toList ("γδ").toList = some (2, 4) := rfl

/-- C5: `contains_english` is true iff some character of the text lies in
a–z or A–Z; in particular it is true on "hello" and false on "こんにちは". -/
theorem C5_contains_english_iff :
    (∀ text : List Char, contains_english text = true ↔
      ∃ c ∈ text, ('a' ≤ c ∧ c ≤ 'z') ∨ ('A' ≤ c ∧ c ≤ 'Z')) ∧
    contains_english ("hello").toList = true ∧
    contains_english ("こんにちは").toList = false := by
  refine ⟨fun text => ?_, by decide, by decide⟩
  simp [contains_english, isEnglishChar, List.any_eq_true, Bool.or_eq_true,
    Bool.and_eq_true, decide_eq_true_eq]

/-- C6: the script filter is applied to the question and to the first
answer text of each QA pair; if either contains a Latin letter, the pair is
rejected (before span validation — the same error is emitted whether or not
the answer occurs in the context), an error report with error string
'Contains English characters' is recorded, and the pair's processing
produces an error report, not a cleaned record. -/
theorem C6_english_filter_rejects :
    ∀ (d cleaned : Dataset) (errs : List ErrorReport),
      clean_squad_dataset d = some (cleaned, errs) →
      ∀ art ∈ d.data, ∀ para ∈ art.paragraphs, ∀ qa ∈ para.qas,
      ∀ ans rest, qa.answers = ans :: rest →
      (contains_english qa.question || contains_english ans.text) = true →
      ({ id := qa.id, question := qa.question, context := para.context,
         answer := ans, error := some errEnglish : ErrorReport } ∈ errs ∧
       processQA para.context qa = some (Sum.inr
         { id := qa.id, question := qa.question, context := para.context,
           answer := ans, error := some errEnglish })) := by
  intro d cleaned errs h art hart para hpara qa hqa ans rest hans hfilter
  have hq := @processQA_english para.context qa ans rest hans hfilter
  exact ⟨clean_err_mem h hart hpara hqa hq, hq⟩

/-- Witness for C6: `wQA3` has a Latin-letter question ("why"); even though
its answer text does occur in the context, it is rejected as `wErrEnglish`. -/
theorem C6_witness :
    wErrEnglish ∈ [wErrLondon, wErrEnglish] ∧
    processQA wContext wQA3 = some (Sum.inr wErrEnglish) :=
  C6_english_filter_rejects wDataset wCleaned [wErrLondon, wErrEnglish] rfl
    wArticle (by decide) wPara (by decide) wQA3 (by decide)
    wAnswerParis [] rfl rfl

/-- C7: the cleaned output never contains a paragraph with an empty QA list
nor an article with an empty paragraph list; conversely, every input
paragraph whose surviving QA list is non-empty appears (with that list) in
a cleaned article bearing its article's title. -/
theorem C7_pruning_iff :
    ∀ (d cleaned : Dataset) (errs : List ErrorReport),
      clean_squad_dataset d = some (cleaned, errs) →
      ((∀ a' ∈ cleaned.data, a'.paragraphs ≠ [] ∧
          ∀ p' ∈ a'.paragraphs, p'.qas ≠ []) ∧
       (∀ art ∈ d.data, ∀ para ∈ art.paragraphs, ∀ cs es',
          processQAs para.context para.qas = some (cs, es') → cs ≠ [] →
          ∃ a' ∈ cleaned.data, a'.title = art.title ∧
            { context := para.context, qas := cs : Paragraph } ∈
              a'.paragraphs)) := by
  intro d cleaned errs h
  obtain ⟨hpa, _⟩ := clean_inv h
  constructor
  · intro a' ha'
    obtain ⟨a, haIn, esA, hps, _, hne⟩ := processArticles_out_sound hpa ha'
    refine ⟨hne, fun p' hp' => ?_⟩
    obtain ⟨p, hpIn, esP, hqs, _, hne'⟩ := processParas_out_sound hps hp'
    exact hne'
  · intro art hart para hpara cs es' hqs hcs
    obtain ⟨⟨oa, errsA⟩, ha⟩ := processArticles_some_of_mem hpa hart
    obtain ⟨ps, hps, hoa⟩ := processArticle_inv ha
    have hmem : { context := para.context, qas := cs : Paragraph } ∈ ps :=
      processParas_complete hps hpara hqs hcs
    have hps0 : ps ≠ [] := fun h0 => by simp [h0] at hmem
    have hart' : { title := art.title, paragraphs := ps : Article } ∈
        cleaned.data := processArticles_complete hpa hart hps hps0
    exact ⟨_, hart', rfl, hmem⟩

/-- Witness for C7: in `wDataset` the sole paragraph's surviving QA list is
`[wCleanedQA]`, so a paragraph with exactly that list appears in a cleaned
article titled like `wArticle`. -/
theorem C7_witness :
    ∃ a' ∈ wCleaned.data, a'.title = wArticle.title ∧
      { context := wContext, qas := [wCleanedQA] : Paragraph } ∈
        a'.paragraphs :=
  (C7_pruning_iff wDataset wCleaned [wErrLondon, wErrEnglish] rfl).2
    wArticle (by decide) wPara (by decide) [wCleanedQA]
    [wErrLondon, wErrEnglish] rfl (by decide)

/-- C8: when every input QA pair has at least one answer, cleaning
processes the whole batch without aborting, and the number of cleaned QA
pairs plus the number of error reports equals the number of input QA
pairs. -/
theorem C8_qa_conservation :
    ∀ d : Dataset,
      (∀ a ∈ d.data, ∀ p ∈ a.paragraphs, ∀ qa ∈ p.qas, qa.answers ≠ []) →
      ∃ cleaned errs, clean_squad_dataset d = some (cleaned, errs) ∧
        countQAs cleaned + errs.length = countQAs d := by
  intro d h
  obtain ⟨⟨arts, errs⟩, ha⟩ := processArticles_isSome h
  refine ⟨{ version := d.version, data := arts }, errs, ?_, ?_⟩
  · simp [clean_squad_dataset, ha]
  · simpa [countQAs, countA, countP] using processArticles_length ha

/-- Witness for C8: on `wDataset` (3 input QA pairs) cleaning yields 1
cleaned pair and 2 error reports. -/
theorem C8_witness :
    ∃ cleaned errs, clean_squad_dataset wDataset = some (cleaned, errs) ∧
      countQAs cleaned + errs.length = countQAs wDataset :=
  C8_qa_conservation wDataset (by decide)

/-- C9: cleaning is a stable filter: the cleaned article sequence is an
in-order selection of the input articles (related pointwise by
`ArticleFrom`, which in turn demands in-order selection of paragraphs and
of QA pairs) — nothing is reordered. -/
theorem C9_stable_subsequence :
    ∀ (d cleaned : Dataset) (errs : List ErrorReport),
      clean_squad_dataset d = some (cleaned, errs) →
      List.SublistForall₂ ArticleFrom cleaned.data d.data :=
  fun d cleaned errs h => processArticles_sublist (clean_inv h).1

/-- Witness for C9 on the concrete dataset `wDataset`. -/
theorem C9_witness :
    List.SublistForall₂ ArticleFrom wCleaned.data wDataset.data :=
  C9_stable_subsequence wDataset wCleaned [wErrLondon, wErrEnglish] rfl

/-- C10: whenever `find_answer_span` returns `(s, e)`, the span is in
bounds and round-trips: `e = s + length a`, `e ≤ length c`, and the
characters of `c` from `s` (inclusive) to `e` (exclusive) are exactly
`a`. (`0 ≤ s` holds by the type `Nat`.) -/
theorem C10_span_roundtrip :
    ∀ (c a : List Char) (s e : Nat), find_answer_span c a = some (s, e) →
      e = s + a.length ∧ e ≤ c.length ∧ (c.drop s).take (e - s) = a := by
  intro c a s e h
  obtain ⟨hsf, he⟩ := find_answer_span_some_iff.mp h
  subst he
  have hpre := strFind_prefix hsf
  have hsle := strFind_le_length hsf
  have hlen := isPrefixOf_length_le hpre
  rw [List.length_drop] at hlen
  refine ⟨rfl, by omega, ?_⟩
  have hes : s + a.length - s = a.length := by omega
  rw [hes]
  exact isPrefixOf_take hpre

/-- Witness for C10 on `locate("The cat sat.", "cat") = (4, 7)`. -/
theorem C10_witness :
    7 = 4 + ("cat").toList.length ∧ 7 ≤ ("The cat sat.").toList.length ∧
      ((("The cat sat.").toList.drop 4).take (7 - 4)) = ("cat").toList :=
  C10_span_roundtrip ("The cat sat.").toList ("cat").toList 4 7 rfl

end SquadClean
